import Mathlib

/-!
Verification of the ClusterPOI program: a DBSCAN-based geographic point
clusterer.  The CSV reading/writing code, the short-circuit for inputs of
fewer than two points, and the summary formulas are translated from
`src/main.rs`.  The clustering engine itself is delegated by the source to
an external statistics library, so it is modelled from the specification
(sections 4.1 to 4.3): distance metric, range query and the DBSCAN worklist
state machine.
-/

namespace ClusterPOI

/-- Point data model: an ordered pair of real-valued coordinates
(latitude, longitude), from `src/main.rs` (`Vec<(f64, f64, ...)>`), with
the reals embedded as rationals. -/
structure Point where
  lat : ℚ
  lon : ℚ
deriving DecidableEq, Repr

instance : Inhabited Point := ⟨⟨0, 0⟩⟩

/-- Modelled from the spec: the Distance Metric of section 4.1 (the source
delegates it to the statistics library).  Squared Euclidean distance on the
raw (lat, lon) pair; comparisons `dist a b ≤ r` are embedded as
`0 ≤ r ∧ distSq a b ≤ r ^ 2`, which is equivalent over the reals. -/
def distSq (a b : Point) : ℚ :=
  (a.lat - b.lat) ^ 2 + (a.lon - b.lon) ^ 2

/-- Modelled from the spec: the Neighbor Index of section 4.2 (the source
delegates it to the statistics library).  Returns every point index,
including the center itself, whose distance to `center` is at most `eps`. -/
def rangeQuery (pts : List Point) (center : Point) (eps : ℚ) : List Nat :=
  (List.range pts.length).filter
    (fun j => decide (0 ≤ eps ∧ distSq (pts.getD j default) center ≤ eps ^ 2))

/-- Label data model from section 3 of the spec: `Unvisited`, `Noise`, or
`Cluster id`. -/
inductive Label where
  | Unvisited : Label
  | Noise : Label
  | Cluster : Nat → Label
deriving DecidableEq, Repr

/-- Label of point `q` in the label array; out-of-range reads default to
`Noise` (they never occur on the indices the algorithm visits). -/
def getL (labels : List Label) (q : Nat) : Label :=
  labels.getD q .Noise

/-- Epsilon-neighborhood of the point with index `j`. -/
def neighbors (pts : List Point) (eps : ℚ) (j : Nat) : List Nat :=
  rangeQuery pts (pts.getD j default) eps

/-- Core-point predicate from the spec glossary: the epsilon-neighborhood
(including the point itself) has at least `minS` members. -/
def isCore (pts : List Point) (eps : ℚ) (minS : Nat) (j : Nat) : Prop :=
  minS ≤ (neighbors pts eps j).length

/-- Membership in a range query, unfolded. -/
theorem mem_rangeQuery {pts : List Point} {center : Point} {eps : ℚ} {i : Nat} :
    i ∈ rangeQuery pts center eps ↔
      i < pts.length ∧ 0 ≤ eps ∧ distSq (pts.getD i default) center ≤ eps ^ 2 := by
  simp [rangeQuery, List.mem_filter, List.mem_range, and_assoc]

theorem length_rangeQuery_le (pts : List Point) (center : Point) (eps : ℚ) :
    (rangeQuery pts center eps).length ≤ pts.length := by
  calc (rangeQuery pts center eps).length
      ≤ (List.range pts.length).length := List.length_filter_le _ _
    _ = pts.length := List.length_range _

theorem length_neighbors_le (pts : List Point) (eps : ℚ) (j : Nat) :
    (neighbors pts eps j).length ≤ pts.length :=
  length_rangeQuery_le _ _ _

/-- Reading past the end of the label array yields the `Noise` default. -/
theorem getL_of_length_le {labels : List Label} {q : Nat}
    (h : labels.length ≤ q) : getL labels q = .Noise := by
  simp [getL, List.getD, List.getElem?_eq_none h]

theorem lt_length_of_getL_ne_noise {labels : List Label} {q : Nat}
    (h : getL labels q ≠ .Noise) : q < labels.length := by
  by_contra hq
  exact h (getL_of_length_le (Nat.le_of_not_lt hq))

theorem getL_set_self {labels : List Label} {q : Nat} (x : Label)
    (h : q < labels.length) : getL (labels.set q x) q = x := by
  induction labels generalizing q with
  | nil => simp at h
  | cons a l ih =>
    cases q with
    | zero => simp [getL, List.set]
    | succ n =>
      simp only [List.set, getL, List.getD_cons_succ]
      exact ih (Nat.lt_of_succ_lt_succ h)

theorem getL_set_ne {labels : List Label} {q j : Nat} (x : Label)
    (h : j ≠ q) : getL (labels.set q x) j = getL labels j := by
  induction labels generalizing q j with
  | nil => simp [List.set]
  | cons a l ih =>
    cases q with
    | zero =>
      cases j with
      | zero => exact absurd rfl h
      | succ m => simp [getL, List.set]
    | succ n =>
      cases j with
      | zero => simp [getL, List.set]
      | succ m =>
        simp only [List.set, getL, List.getD_cons_succ]
        exact ih (fun hq => h (by omega))

/-- Setting a label never creates an `Unvisited` entry and changes at most
position `q`. -/
theorem getL_set_cases (labels : List Label) (q j : Nat) (x : Label) :
    getL (labels.set q x) j = getL labels j ∨
      (j = q ∧ getL (labels.set q x) j = x) := by
  by_cases hj : j = q
  · subst hj
    by_cases hq : j < labels.length
    · exact Or.inr ⟨rfl, getL_set_self x hq⟩
    · left
      rw [List.set_eq_of_length_le (Nat.le_of_not_lt hq)]
  · exact Or.inl (getL_set_ne x hj)

theorem countP_unvisited_set_lt {labels : List Label} {q : Nat} {c : Nat}
    (h : getL labels q = .Unvisited) :
    (labels.set q (.Cluster c)).countP (fun l => l == .Unvisited) <
      labels.countP (fun l => l == .Unvisited) := by
  induction labels generalizing q with
  | nil => simp [getL] at h
  | cons a l ih =>
    cases q with
    | zero =>
      have ha : a = .Unvisited := h
      subst ha
      simp [List.set, List.countP_cons]
    | succ n =>
      have h' : getL l n = .Unvisited := h
      have := ih h'
      simp only [List.set, List.countP_cons]
      omega

theorem countP_unvisited_set_le (labels : List Label) (q : Nat) (c : Nat) :
    (labels.set q (.Cluster c)).countP (fun l => l == .Unvisited) ≤
      labels.countP (fun l => l == .Unvisited) := by
  induction labels generalizing q with
  | nil => simp [List.set]
  | cons a l ih =>
    cases q with
    | zero => simp [List.set, List.countP_cons]
    | succ n =>
      simp only [List.set, List.countP_cons]
      have := ih n
      omega

/-- Modelled from the spec: step 5 of the Cluster Expander state machine of
section 4.3 (the source delegates the whole DBSCAN algorithm to the
statistics library).  Pops a candidate `q` from the worklist: an
`Unvisited` candidate is relabeled `Cluster c` and, when it is itself a
core point, its neighbors not already carrying the current cluster label
are enqueued; a `Noise` candidate is promoted to `Cluster c` (border
point); a candidate already in a cluster is left unchanged. -/
def expand (pts : List Point) (eps : ℚ) (minS : Nat) (c : Nat) :
    List Label → List Nat → List Label
  | labels, [] => labels
  | labels, q :: rest =>
    if h1 : getL labels q = .Unvisited then
      expand pts eps minS c (labels.set q (.Cluster c))
        (rest ++
          (if minS ≤ (neighbors pts eps q).length then
            (neighbors pts eps q).filter (fun j => decide (getL labels j ≠ .Cluster c))
          else []))
    else if h2 : getL labels q = .Noise then
      expand pts eps minS c (labels.set q (.Cluster c)) rest
    else
      expand pts eps minS c labels rest
termination_by labels queue =>
  labels.countP (fun l => l == .Unvisited) * (pts.length + 1) + queue.length
decreasing_by
  · have hlt := @countP_unvisited_set_lt labels q c h1
    have hmul :
        ((labels.set q (.Cluster c)).countP (fun l => l == .Unvisited) + 1) *
            (pts.length + 1) ≤
          labels.countP (fun l => l == .Unvisited) * (pts.length + 1) :=
      Nat.mul_le_mul_right _ hlt
    rw [Nat.add_mul, Nat.one_mul] at hmul
    simp only [List.length_append, List.length_cons]
    split
    · have henq :
          ((neighbors pts eps q).filter
              (fun j => decide (getL labels j ≠ .Cluster c))).length ≤ pts.length :=
        Nat.le_trans (List.length_filter_le _ _) (length_neighbors_le pts eps q)
      omega
    · simp only [List.length_nil]
      omega
  · have hle := countP_unvisited_set_le labels q c
    have hmul := Nat.mul_le_mul_right (pts.length + 1) hle
    simp only [List.length_cons]
    omega
  · simp only [List.length_cons]
    omega

/-- Modelled from the spec: steps 1 to 4 of the Cluster Expander state
machine of section 4.3.  Iterates the point indices in input order,
skipping already-labeled points; a non-core point is tentatively labeled
`Noise`, a core point opens a fresh cluster id and seeds the expansion
worklist with its neighborhood (excluding the point itself). -/
def dbscanGo (pts : List Point) (eps : ℚ) (minS : Nat) :
    List Nat → List Label → Nat → List Label
  | [], labels, _ => labels
  | i :: rest, labels, nextC =>
    if getL labels i ≠ .Unvisited then
      dbscanGo pts eps minS rest labels nextC
    else if (neighbors pts eps i).length < minS then
      dbscanGo pts eps minS rest (labels.set i .Noise) nextC
    else
      dbscanGo pts eps minS rest
        (expand pts eps minS nextC (labels.set i (.Cluster nextC))
          ((neighbors pts eps i).filter (fun j => decide (j ≠ i))))
        (nextC + 1)

/-- Modelled from the spec: the complete Cluster Expander run of section
4.3 on a point set, starting from an all-`Unvisited` label array and
cluster id 0. -/
def dbscan (pts : List Point) (eps : ℚ) (minS : Nat) : List Label :=
  dbscanGo pts eps minS (List.range pts.length) (List.replicate pts.length .Unvisited) 0

/-- Numeric encoding of section 4.4 of the spec, and of the
`cluster.map(|c| c as i32).unwrap_or(-1)` conversion in
`perform_clustering` (src/main.rs lines 144-146): `-1` for a point without
a cluster, the cluster id otherwise. -/
def labelToInt : Label → Int
  | .Cluster c => (c : Int)
  | _ => -1

/-- Error type of the fallible clustering call in `perform_clustering`
(the `Result` returned by the library's `transform`).  Modelled from the
spec: Parameters require `epsilon > 0` and `minSamples ≥ 1` (section 3),
and the engine cannot otherwise fail (section 4.3). -/
inductive ClusterError where
  | invalidParams : ClusterError
deriving DecidableEq, Repr

/-- Translation of `perform_clustering` (src/main.rs lines 121-147): fewer
than two points short-circuits to an all `-1` labeling before the engine
is consulted; otherwise the epsilon given in kilometers is divided by
111.0 to convert it to degrees and the DBSCAN engine runs.  The engine
itself is modelled from the spec, including its validation of the
parameter domain of section 3. -/
def perform_clustering (pts : List Point) (epsilon : ℚ) (min_samples : Nat) :
    Except ClusterError (List Int) :=
  if pts.length < 2 then
    .ok (List.replicate pts.length (-1))
  else if 0 < epsilon ∧ 1 ≤ min_samples then
    .ok ((dbscan pts (epsilon / 111) min_samples).map labelToInt)
  else
    .error .invalidParams

/-- Summary formula of `main` (src/main.rs line 61):
`clusters.iter().max().unwrap_or(&-1) + 1`. -/
def cluster_count (clusters : List Int) : Int :=
  clusters.max?.getD (-1) + 1

/-- Summary formula of `main` (src/main.rs line 62):
`clusters.iter().filter(|&&c| c == -1).count()`. -/
def noise_count (clusters : List Int) : Nat :=
  (clusters.filter (fun c => c == -1)).length

/-- Maximum label value following the spec words of section 4.5: the
maximum over the label sequence, with the maximum of an all-noise set
treated as `-1`. -/
def maxLabel (clusters : List Int) : Int :=
  clusters.foldl max (-1)

/-- Contiguity of cluster ids in an output sequence (spec section 8):
whenever some non-negative id occurs, the set of ids occurring is exactly
0..k for some k. -/
def contiguousIds (out : List Int) : Prop :=
  (∃ x ∈ out, 0 ≤ x) → ∃ k : Nat, ∀ c : Nat, ((c : Int) ∈ out ↔ c ≤ k)

/-- ASCII lowercase of a character, as Rust's `to_ascii_lowercase`. -/
def asciiLowerChar (c : Char) : Char :=
  if 'A' ≤ c ∧ c ≤ 'Z' then Char.ofNat (c.toNat + 32) else c

/-- Translation of Rust's `eq_ignore_ascii_case` on strings. -/
def eq_ignore_ascii_case (a b : String) : Bool :=
  a.data.map asciiLowerChar == b.data.map asciiLowerChar

/-- Errors of the CSV reader (`read_csv` and `find_coordinate_column` in
src/main.rs): a missing coordinate column records both the candidate names
searched and the headers actually found (the bail message of lines
114-118); a missing or unparsable coordinate cell is fatal (lines
84-92). -/
inductive CsvError where
  | columnNotFound : List String → List String → CsvError
  | fieldMissing : String → CsvError
  | parseFailed : String → CsvError
deriving DecidableEq, Repr

/-- Scan of `find_coordinate_column`'s loop over `headers.iter().enumerate()`
(src/main.rs lines 108-112), returning the first index whose header matches
a candidate name case-insensitively. -/
def findCoordAux (possible_names : List String) : List String → Nat → Option Nat
  | [], _ => none
  | h :: rest, i =>
    if possible_names.any (fun name => eq_ignore_ascii_case h name) then some i
    else findCoordAux possible_names rest (i + 1)

/-- Translation of `find_coordinate_column` (src/main.rs lines 107-119). -/
def find_coordinate_column (headers : List String) (possible_names : List String) :
    Except CsvError Nat :=
  match findCoordAux possible_names headers 0 with
  | some i => .ok i
  | none => .error (.columnNotFound possible_names headers)

/-- Candidate names for the latitude column (src/main.rs line 78). -/
def latCandidates : List String := ["lat", "latitude", "Latitude", "LAT"]

/-- Candidate names for the longitude column (src/main.rs line 79). -/
def lonCandidates : List String :=
  ["lon", "lng", "long", "longitude", "Longitude", "LON", "LNG"]

/-- CSV contents already split into a header row and data rows (the csv
crate parses the raw bytes into `StringRecord`s). -/
structure Csv where
  headers : List String
  rows : List (List String)

/-- Insertion into a per-record attribute map, with the HashMap overwrite
semantics of `extra.insert` for a repeated key. -/
def hmInsert (m : List (String × String)) (k v : String) : List (String × String) :=
  (m.filter (fun p => decide (p.1 ≠ k))) ++ [(k, v)]

/-- Fold of `read_csv`'s attribute loop (src/main.rs lines 94-99): for
each field index that has a header, insert header ↦ field. -/
def buildExtraAux (headers : List String) :
    List (Nat × String) → List (String × String) → List (String × String)
  | [], m => m
  | (i, field) :: rest, m =>
    match headers.get? i with
    | some h => buildExtraAux headers rest (hmInsert m h field)
    | none => buildExtraAux headers rest m

/-- Attribute map of one record: every field of the row, keyed by its
header name. -/
def buildExtra (headers row : List String) : List (String × String) :=
  buildExtraAux headers row.enum []

/-- One iteration of `read_csv`'s record loop (src/main.rs lines 81-101):
fetch and parse the two coordinate cells, then build the attribute map.
`parse` stands for Rust's `str::parse::<f64>`, abstracted as an oracle
returning `none` exactly on parse failure. -/
def parseRow (parse : String → Option ℚ) (latIdx lonIdx : Nat)
    (headers row : List String) :
    Except CsvError (ℚ × ℚ × List (String × String)) :=
  match row.get? latIdx with
  | none => .error (.fieldMissing "latitude")
  | some s =>
    match parse s with
    | none => .error (.parseFailed "latitude")
    | some lat =>
      match row.get? lonIdx with
      | none => .error (.fieldMissing "longitude")
      | some t =>
        match parse t with
        | none => .error (.parseFailed "longitude")
        | some lon => .ok (lat, lon, buildExtra headers row)

/-- Record loop of `read_csv`: the first failing row aborts the read. -/
def readRows (parse : String → Option ℚ) (latIdx lonIdx : Nat)
    (headers : List String) : List (List String) →
    Except CsvError (List (ℚ × ℚ × List (String × String)))
  | [] => .ok []
  | row :: rest =>
    match parseRow parse latIdx lonIdx headers row with
    | .error e => .error e
    | .ok loc =>
      match readRows parse latIdx lonIdx headers rest with
      | .error e => .error e
      | .ok locs => .ok (loc :: locs)

/-- Translation of `read_csv` (src/main.rs lines 71-105): locate the two
coordinate columns, then read every record. -/
def read_csv (parse : String → Option ℚ) (c : Csv) :
    Except CsvError (List (ℚ × ℚ × List (String × String))) :=
  match find_coordinate_column c.headers latCandidates with
  | .error e => .error e
  | .ok latIdx =>
    match find_coordinate_column c.headers lonCandidates with
    | .error e => .error e
    | .ok lonIdx => readRows parse latIdx lonIdx c.headers c.rows

/-- Insertion of one string into a sorted list, for the embedding of the
`all_headers.sort()` call of `write_csv`. -/
def insertSorted (s : String) : List String → List String
  | [] => [s]
  | t :: rest => if s ≤ t then s :: t :: rest else t :: insertSorted s rest

/-- Insertion sort on strings, embedding `all_headers.sort()`. -/
def sortStrings : List String → List String
  | [] => []
  | s :: rest => insertSorted s (sortStrings rest)

/-- Translation of `write_csv` (src/main.rs lines 149-180) as the rows the
CSV writer emits: nothing for an empty location list; otherwise the sorted
attribute headers of the first record plus a trailing `cluster` column,
then one row per (location, cluster) pair, with missing attributes emitted
as empty strings. -/
def write_csv (locations : List (ℚ × ℚ × List (String × String)))
    (clusters : List Int) : List (List String) :=
  match locations with
  | [] => []
  | loc0 :: _ =>
    (sortStrings (loc0.2.2.map Prod.fst) ++ ["cluster"]) ::
      (locations.zip clusters).map (fun lc =>
        (sortStrings (loc0.2.2.map Prod.fst)).map
            (fun h => ((lc.1.2.2.lookup h).getD "")) ++ [toString lc.2])

/-- Label arrays keep their length through the expansion worklist. -/
theorem length_expand (pts : List Point) (eps : ℚ) (minS c : Nat)
    (labels : List Label) (queue : List Nat) :
    (expand pts eps minS c labels queue).length = labels.length := by
  induction labels, queue using expand.induct pts eps minS c with
  | case1 labels => rw [expand]
  | case2 labels q rest h1 ih =>
    rw [expand]
    simp only [dif_pos h1]
    simp only [dite_eq_ite] at ih
    rw [ih, List.length_set]
  | case3 labels q rest h1 h2 ih =>
    rw [expand]
    simp only [dif_neg h1, dif_pos h2]
    rw [ih, List.length_set]
  | case4 labels q rest h1 h2 ih =>
    rw [expand]
    simp only [dif_neg h1, dif_neg h2]
    exact ih

theorem expand_nil (pts : List Point) (eps : ℚ) (minS c : Nat) (labels : List Label) :
    expand pts eps minS c labels [] = labels := by
  rw [expand]

theorem expand_cons_unvisited {pts : List Point} {eps : ℚ} {minS c : Nat}
    {labels : List Label} {q : Nat} (rest : List Nat)
    (h1 : getL labels q = .Unvisited) :
    expand pts eps minS c labels (q :: rest) =
      expand pts eps minS c (labels.set q (.Cluster c))
        (rest ++ (if minS ≤ (neighbors pts eps q).length then
          (neighbors pts eps q).filter (fun j => decide (getL labels j ≠ .Cluster c))
        else [])) := by
  rw [expand]
  simp only [dif_pos h1, dite_eq_ite]

theorem expand_cons_noise {pts : List Point} {eps : ℚ} {minS c : Nat}
    {labels : List Label} {q : Nat} (rest : List Nat)
    (h1 : getL labels q ≠ .Unvisited) (h2 : getL labels q = .Noise) :
    expand pts eps minS c labels (q :: rest) =
      expand pts eps minS c (labels.set q (.Cluster c)) rest := by
  rw [expand]
  simp only [dif_neg h1, dif_pos h2]

theorem expand_cons_cluster {pts : List Point} {eps : ℚ} {minS c : Nat}
    {labels : List Label} {q : Nat} (rest : List Nat)
    (h1 : getL labels q ≠ .Unvisited) (h2 : getL labels q ≠ .Noise) :
    expand pts eps minS c labels (q :: rest) =
      expand pts eps minS c labels rest := by
  rw [expand]
  simp only [dif_neg h1, dif_neg h2]

/-- Every label position either keeps its value through the expansion
worklist or ends up carrying the current cluster id `c`. -/
theorem getL_expand_cases (pts : List Point) (eps : ℚ) (minS c : Nat)
    (labels : List Label) (queue : List Nat) (j : Nat) :
    getL (expand pts eps minS c labels queue) j = getL labels j ∨
      getL (expand pts eps minS c labels queue) j = .Cluster c := by
  induction labels, queue using expand.induct pts eps minS c with
  | case1 labels => left; rw [expand_nil]
  | case2 labels q rest h1 ih =>
    rw [expand_cons_unvisited rest h1]
    simp only [dite_eq_ite] at ih
    rcases ih with h | h
    · rcases getL_set_cases labels q j (.Cluster c) with hs | ⟨hj, hs⟩
      · left; rw [h, hs]
      · right; rw [h, hs]
    · right; exact h
  | case3 labels q rest h1 h2 ih =>
    rw [expand_cons_noise rest h1 h2]
    rcases ih with h | h
    · rcases getL_set_cases labels q j (.Cluster c) with hs | ⟨hj, hs⟩
      · left; rw [h, hs]
      · right; rw [h, hs]
    · right; exact h
  | case4 labels q rest h1 h2 ih =>
    rw [expand_cons_cluster rest h1 h2]
    exact ih

/-- A point already claimed by some cluster is never relabeled by the
expansion worklist (section 4.3: cluster labels are terminal). -/
theorem getL_expand_cluster_stable {pts : List Point} {eps : ℚ} {minS c : Nat}
    {labels : List Label} {queue : List Nat} {j d : Nat}
    (hd : getL labels j = .Cluster d) :
    getL (expand pts eps minS c labels queue) j = .Cluster d := by
  induction labels, queue using expand.induct pts eps minS c generalizing j with
  | case1 labels => rw [expand_nil]; exact hd
  | case2 labels q rest h1 ih =>
    rw [expand_cons_unvisited rest h1]
    refine ih ?_
    have hj : j ≠ q := fun h => by rw [h, h1] at hd; exact Label.noConfusion hd
    rw [getL_set_ne _ hj]
    exact hd
  | case3 labels q rest h1 h2 ih =>
    rw [expand_cons_noise rest h1 h2]
    refine ih ?_
    have hj : j ≠ q := fun h => by rw [h, h2] at hd; exact Label.noConfusion hd
    rw [getL_set_ne _ hj]
    exact hd
  | case4 labels q rest h1 h2 ih =>
    rw [expand_cons_cluster rest h1 h2]
    exact ih hd

theorem getL_expand_unvisited {pts : List Point} {eps : ℚ} {minS c : Nat}
    {labels : List Label} {queue : List Nat} {j : Nat}
    (h : getL (expand pts eps minS c labels queue) j = .Unvisited) :
    getL labels j = .Unvisited := by
  rcases getL_expand_cases pts eps minS c labels queue j with hc | hc
  · rw [← hc]; exact h
  · rw [h] at hc; exact Label.noConfusion hc

theorem getL_expand_noise {pts : List Point} {eps : ℚ} {minS c : Nat}
    {labels : List Label} {queue : List Nat} {j : Nat}
    (h : getL (expand pts eps minS c labels queue) j = .Noise) :
    getL labels j = .Noise := by
  rcases getL_expand_cases pts eps minS c labels queue j with hc | hc
  · rw [← hc]; exact h
  · rw [h] at hc; exact Label.noConfusion hc

/-- Density-reachability in one hop, as produced by the algorithm: `i`
lies in the epsilon-neighborhood of some core point.  By section 8 of the
spec this is exactly the clustered/noise divide. -/
def reachable (pts : List Point) (eps : ℚ) (minS : Nat) (i : Nat) : Prop :=
  ∃ j, j < pts.length ∧ isCore pts eps minS j ∧ i ∈ neighbors pts eps j

/-- Forward half of the characterization: the expansion worklist only ever
assigns cluster labels to points within epsilon of a core point, provided
the current labels and the worklist already satisfy that. -/
theorem expand_fwd {pts : List Point} {eps : ℚ} {minS c : Nat}
    {labels : List Label} {queue : List Nat}
    (hlen : labels.length = pts.length)
    (hlab : ∀ i d, getL labels i = .Cluster d → reachable pts eps minS i)
    (hque : ∀ i ∈ queue, reachable pts eps minS i) :
    ∀ i d, getL (expand pts eps minS c labels queue) i = .Cluster d →
      reachable pts eps minS i := by
  induction labels, queue using expand.induct pts eps minS c with
  | case1 labels =>
    rw [expand_nil]
    exact hlab
  | case2 labels q rest h1 ih =>
    rw [expand_cons_unvisited rest h1]
    simp only [dite_eq_ite] at ih
    have hq : q < pts.length := by
      rw [← hlen]
      exact lt_length_of_getL_ne_noise (by rw [h1]; exact fun h => Label.noConfusion h)
    refine ih (by rw [List.length_set]; exact hlen) ?_ ?_
    · intro i d hi
      rcases getL_set_cases labels q i (.Cluster c) with hs | ⟨hj, _⟩
      · exact hlab i d (by rw [← hs]; exact hi)
      · subst hj
        exact hque i (List.mem_cons_self _ _)
    · intro i hi
      rcases List.mem_append.mp hi with hr | he
      · exact hque i (List.mem_cons_of_mem _ hr)
      · rcases Decidable.em (minS ≤ (neighbors pts eps q).length) with hcore | hncore
        · rw [if_pos hcore] at he
          have hin : i ∈ neighbors pts eps q := (List.mem_filter.mp he).1
          exact ⟨q, hq, hcore, hin⟩
        · rw [if_neg hncore] at he
          exact absurd he (List.not_mem_nil i)
  | case3 labels q rest h1 h2 ih =>
    rw [expand_cons_noise rest h1 h2]
    refine ih (by rw [List.length_set]; exact hlen) ?_ ?_
    · intro i d hi
      rcases getL_set_cases labels q i (.Cluster c) with hs | ⟨hj, _⟩
      · exact hlab i d (by rw [← hs]; exact hi)
      · subst hj
        exact hque i (List.mem_cons_self _ _)
    · intro i hi
      exact hque i (List.mem_cons_of_mem _ hi)
  | case4 labels q rest h1 h2 ih =>
    rw [expand_cons_cluster rest h1 h2]
    refine ih hlen hlab ?_
    intro i hi
    exact hque i (List.mem_cons_of_mem _ hi)

/-- Backward half of the characterization, as a worklist invariant: if
every neighbor of every clustered core point is already clustered or still
on the worklist, then once the worklist is drained every neighbor of every
clustered core point is clustered. -/
theorem expand_outer_inv {pts : List Point} {eps : ℚ} {minS c : Nat}
    {labels : List Label} {queue : List Nat}
    (hlen : labels.length = pts.length)
    (hnnc : ∀ j, j < pts.length → getL labels j = .Noise → ¬ isCore pts eps minS j)
    (hinv : ∀ j, j < pts.length → isCore pts eps minS j →
        (∃ d, getL labels j = .Cluster d) →
        ∀ i ∈ neighbors pts eps j, (∃ d, getL labels i = .Cluster d) ∨ i ∈ queue) :
    ∀ j, j < pts.length → isCore pts eps minS j →
      (∃ d, getL (expand pts eps minS c labels queue) j = .Cluster d) →
      ∀ i ∈ neighbors pts eps j,
        ∃ d, getL (expand pts eps minS c labels queue) i = .Cluster d := by
  induction labels, queue using expand.induct pts eps minS c with
  | case1 labels =>
    rw [expand_nil]
    intro j hj hcore hclus i hi
    rcases hinv j hj hcore hclus i hi with h | h
    · exact h
    · exact absurd h (List.not_mem_nil i)
  | case2 labels q rest h1 ih =>
    rw [expand_cons_unvisited rest h1]
    simp only [dite_eq_ite] at ih
    have hq : q < labels.length :=
      lt_length_of_getL_ne_noise (by rw [h1]; exact fun h => Label.noConfusion h)
    have hqn : q < pts.length := hlen ▸ hq
    refine ih (by rw [List.length_set]; exact hlen) ?_ ?_
    · intro j hj hsj
      rcases getL_set_cases labels q j (.Cluster c) with hs | ⟨hjq, hs⟩
      · exact hnnc j hj (hs ▸ hsj)
      · rw [hsj] at hs; exact absurd hs.symm (fun h => Label.noConfusion h)
    · intro j hj hcore hclus i hi
      have hcoreLen : minS ≤ (neighbors pts eps j).length := hcore
      by_cases hjq : j = q
      · subst hjq
        rw [if_pos hcoreLen]
        by_cases hic : getL labels i = .Cluster c
        · left
          have hiq : i ≠ j := fun h => by rw [h, h1] at hic; exact Label.noConfusion hic
          exact ⟨c, by rw [getL_set_ne _ hiq]; exact hic⟩
        · right
          exact List.mem_append_right _
            (List.mem_filter.mpr ⟨hi, decide_eq_true hic⟩)
      · obtain ⟨d, hgd⟩ := hclus
        have hgd' : getL labels j = .Cluster d := by
          rw [getL_set_ne _ hjq] at hgd; exact hgd
        rcases hinv j hj hcore ⟨d, hgd'⟩ i hi with ⟨d', hd'⟩ | hqmem
        · left
          have hiq : i ≠ q := fun h => by rw [h, h1] at hd'; exact Label.noConfusion hd'
          exact ⟨d', by rw [getL_set_ne _ hiq]; exact hd'⟩
        · rcases List.mem_cons.mp hqmem with hiq | hir
          · subst hiq
            exact Or.inl ⟨c, getL_set_self _ hq⟩
          · exact Or.inr (List.mem_append_left _ hir)
  | case3 labels q rest h1 h2 ih =>
    rw [expand_cons_noise rest h1 h2]
    refine ih (by rw [List.length_set]; exact hlen) ?_ ?_
    · intro j hj hsj
      rcases getL_set_cases labels q j (.Cluster c) with hs | ⟨hjq, hs⟩
      · exact hnnc j hj (hs ▸ hsj)
      · rw [hsj] at hs; exact absurd hs.symm (fun h => Label.noConfusion h)
    · intro j hj hcore hclus i hi
      by_cases hjq : j = q
      · subst hjq
        exact absurd hcore (hnnc j hj h2)
      · obtain ⟨d, hgd⟩ := hclus
        have hgd' : getL labels j = .Cluster d := by
          rw [getL_set_ne _ hjq] at hgd; exact hgd
        rcases hinv j hj hcore ⟨d, hgd'⟩ i hi with ⟨d', hd'⟩ | hqmem
        · left
          have hiq : i ≠ q := fun h => by rw [h, h2] at hd'; exact Label.noConfusion hd'
          exact ⟨d', by rw [getL_set_ne _ hiq]; exact hd'⟩
        · rcases List.mem_cons.mp hqmem with hiq | hir
          · subst hiq
            by_cases hqlen : i < labels.length
            · exact Or.inl ⟨c, getL_set_self _ hqlen⟩
            · have : i < pts.length := (mem_rangeQuery.mp hi).1
              exact absurd (hlen ▸ this) hqlen
          · exact Or.inr hir
  | case4 labels q rest h1 h2 ih =>
    rw [expand_cons_cluster rest h1 h2]
    obtain ⟨e, he⟩ : ∃ e, getL labels q = .Cluster e := by
      cases hl : getL labels q with
      | Unvisited => exact absurd hl h1
      | Noise => exact absurd hl h2
      | Cluster e => exact ⟨e, rfl⟩
    refine ih hlen hnnc ?_
    intro j hj hcore hclus i hi
    rcases hinv j hj hcore hclus i hi with h | hqmem
    · exact Or.inl h
    · rcases List.mem_cons.mp hqmem with hiq | hir
      · subst hiq
        exact Or.inl ⟨e, he⟩
      · exact Or.inr hir

theorem distSq_self (a : Point) : distSq a a = 0 := by
  simp [distSq]

theorem self_mem_neighbors {pts : List Point} {eps : ℚ} {i : Nat}
    (hi : i < pts.length) (heps : 0 ≤ eps) : i ∈ neighbors pts eps i := by
  refine mem_rangeQuery.mpr ⟨hi, heps, ?_⟩
  rw [distSq_self]
  exact sq_nonneg eps

theorem nonneg_eps_of_core {pts : List Point} {eps : ℚ} {minS i : Nat}
    (hminS : 1 ≤ minS) (h : isCore pts eps minS i) : 0 ≤ eps := by
  have hlen : 0 < (neighbors pts eps i).length := Nat.lt_of_lt_of_le hminS h
  obtain ⟨x, hx⟩ := List.exists_mem_of_length_pos hlen
  exact (mem_rangeQuery.mp hx).2.1

theorem dbscanGo_nil (pts : List Point) (eps : ℚ) (minS : Nat)
    (labels : List Label) (nextC : Nat) :
    dbscanGo pts eps minS [] labels nextC = labels := rfl

theorem dbscanGo_cons_skip {pts : List Point} {eps : ℚ} {minS : Nat}
    {labels : List Label} {i : Nat} (rest : List Nat) (nextC : Nat)
    (h : getL labels i ≠ .Unvisited) :
    dbscanGo pts eps minS (i :: rest) labels nextC =
      dbscanGo pts eps minS rest labels nextC := by
  rw [dbscanGo]
  simp only [if_pos h]

theorem dbscanGo_cons_noise {pts : List Point} {eps : ℚ} {minS : Nat}
    {labels : List Label} {i : Nat} (rest : List Nat) (nextC : Nat)
    (h : getL labels i = .Unvisited) (hc : (neighbors pts eps i).length < minS) :
    dbscanGo pts eps minS (i :: rest) labels nextC =
      dbscanGo pts eps minS rest (labels.set i .Noise) nextC := by
  have hne : ¬ getL labels i ≠ .Unvisited := fun hne => hne h
  rw [dbscanGo, if_neg hne, if_pos hc]

theorem dbscanGo_cons_core {pts : List Point} {eps : ℚ} {minS : Nat}
    {labels : List Label} {i : Nat} (rest : List Nat) (nextC : Nat)
    (h : getL labels i = .Unvisited) (hc : ¬ (neighbors pts eps i).length < minS) :
    dbscanGo pts eps minS (i :: rest) labels nextC =
      dbscanGo pts eps minS rest
        (expand pts eps minS nextC (labels.set i (.Cluster nextC))
          ((neighbors pts eps i).filter (fun j => decide (j ≠ i))))
        (nextC + 1) := by
  have hne : ¬ getL labels i ≠ .Unvisited := fun hne => hne h
  rw [dbscanGo, if_neg hne, if_neg hc]

/-- Loop invariant of the Cluster Expander: `is` is the list of indices
the outer loop has not visited yet.  Bundles label-array length, that
tentative `Noise` labels only sit on non-core points, that unvisited
points are still pending, that allocated cluster ids are exactly
`0..nextC-1`, and the two halves of the clustered-iff-reachable
characterization. -/
structure EngineInv (pts : List Point) (eps : ℚ) (minS : Nat)
    (is : List Nat) (labels : List Label) (nextC : Nat) : Prop where
  len_eq : labels.length = pts.length
  noise_not_core : ∀ j, j < pts.length → getL labels j = .Noise → ¬ isCore pts eps minS j
  unvisited_mem : ∀ j, getL labels j = .Unvisited → j ∈ is
  id_lt : ∀ j d, getL labels j = .Cluster d → d < nextC
  id_ex : ∀ d, d < nextC → ∃ j, j < pts.length ∧ getL labels j = .Cluster d
  fwd : ∀ i d, getL labels i = .Cluster d → reachable pts eps minS i
  outer : ∀ j, j < pts.length → isCore pts eps minS j →
      (∃ d, getL labels j = .Cluster d) →
      ∀ i ∈ neighbors pts eps j, ∃ d, getL labels i = .Cluster d
  bound : ∀ i ∈ is, i < pts.length

/-- Running the outer loop preserves the engine invariant and drains the
pending index list. -/
theorem dbscanGo_inv {pts : List Point} {eps : ℚ} {minS : Nat}
    (hminS : 1 ≤ minS) :
    ∀ (is : List Nat) (labels : List Label) (nextC : Nat),
      EngineInv pts eps minS is labels nextC →
      ∃ nextC', nextC ≤ nextC' ∧
        EngineInv pts eps minS [] (dbscanGo pts eps minS is labels nextC) nextC' := by
  intro is
  induction is with
  | nil =>
    intro labels nextC hinv
    rw [dbscanGo_nil]
    exact ⟨nextC, Nat.le_refl _, hinv⟩
  | cons i rest ih =>
    intro labels nextC hinv
    have hin : i < pts.length := hinv.bound i (List.mem_cons_self _ _)
    by_cases hu : getL labels i = .Unvisited
    · by_cases hnc : (neighbors pts eps i).length < minS
      · rw [dbscanGo_cons_noise rest nextC hu hnc]
        refine ih (labels.set i .Noise) nextC ?_
        have hil : i < labels.length := hinv.len_eq ▸ hin
        refine ⟨by rw [List.length_set]; exact hinv.len_eq, ?_, ?_, ?_, ?_, ?_, ?_, ?_⟩
        · intro j hj hsj
          rcases getL_set_cases labels i j .Noise with hs | ⟨hji, _⟩
          · exact hinv.noise_not_core j hj (hs ▸ hsj)
          · subst hji
            intro hcore
            exact absurd hcore (Nat.not_le_of_lt hnc)
        · intro j hsj
          have hji : j ≠ i := fun h => by
            rw [h, getL_set_self _ hil] at hsj
            exact Label.noConfusion hsj
          rw [getL_set_ne _ hji] at hsj
          rcases List.mem_cons.mp (hinv.unvisited_mem j hsj) with h | h
          · exact absurd h hji
          · exact h
        · intro j d hsj
          have hji : j ≠ i := fun h => by
            rw [h, getL_set_self _ hil] at hsj
            exact Label.noConfusion hsj
          rw [getL_set_ne _ hji] at hsj
          exact hinv.id_lt j d hsj
        · intro d hd
          obtain ⟨j, hj, hgj⟩ := hinv.id_ex d hd
          have hji : j ≠ i := fun h => by
            rw [h, hu] at hgj
            exact Label.noConfusion hgj
          exact ⟨j, hj, by rw [getL_set_ne _ hji]; exact hgj⟩
        · intro i' d hsi
          have hii : i' ≠ i := fun h => by
            rw [h, getL_set_self _ hil] at hsi
            exact Label.noConfusion hsi
          rw [getL_set_ne _ hii] at hsi
          exact hinv.fwd i' d hsi
        · intro j hj hcore hclus i' hi'
          obtain ⟨d, hgd⟩ := hclus
          have hji : j ≠ i := fun h => by
            rw [h, getL_set_self _ hil] at hgd
            exact Label.noConfusion hgd
          rw [getL_set_ne _ hji] at hgd
          obtain ⟨d', hd'⟩ := hinv.outer j hj hcore ⟨d, hgd⟩ i' hi'
          have hii : i' ≠ i := fun h => by
            rw [h, hu] at hd'
            exact Label.noConfusion hd'
          exact ⟨d', by rw [getL_set_ne _ hii]; exact hd'⟩
        · intro j hj
          exact hinv.bound j (List.mem_cons_of_mem _ hj)
      · rw [dbscanGo_cons_core rest nextC hu hnc]
        have hil : i < labels.length := hinv.len_eq ▸ hin
        have hcore_i : isCore pts eps minS i := Nat.le_of_not_lt hnc
        have heps : 0 ≤ eps := nonneg_eps_of_core hminS hcore_i
        have hselfmem : i ∈ neighbors pts eps i := self_mem_neighbors hin heps
        have hlen1 : (labels.set i (.Cluster nextC)).length = pts.length := by
          rw [List.length_set]; exact hinv.len_eq
        have hnnc1 : ∀ j, j < pts.length →
            getL (labels.set i (.Cluster nextC)) j = .Noise →
            ¬ isCore pts eps minS j := by
          intro j hj hsj
          have hji : j ≠ i := fun h => by
            rw [h, getL_set_self _ hil] at hsj
            exact Label.noConfusion hsj
          rw [getL_set_ne _ hji] at hsj
          exact hinv.noise_not_core j hj hsj
        have hfwd1 : ∀ i' d, getL (labels.set i (.Cluster nextC)) i' = .Cluster d →
            reachable pts eps minS i' := by
          intro i' d hsi
          rcases getL_set_cases labels i i' (.Cluster nextC) with hs | ⟨hii, _⟩
          · exact hinv.fwd i' d (hs ▸ hsi)
          · rw [hii]
            exact ⟨i, hin, hcore_i, hselfmem⟩
        have hque1 : ∀ q ∈ (neighbors pts eps i).filter (fun j => decide (j ≠ i)),
            reachable pts eps minS q := by
          intro q hq
          exact ⟨i, hin, hcore_i, (List.mem_filter.mp hq).1⟩
        have hstinv1 : ∀ j, j < pts.length → isCore pts eps minS j →
            (∃ d, getL (labels.set i (.Cluster nextC)) j = .Cluster d) →
            ∀ i' ∈ neighbors pts eps j,
              (∃ d, getL (labels.set i (.Cluster nextC)) i' = .Cluster d) ∨
                i' ∈ (neighbors pts eps i).filter (fun j => decide (j ≠ i)) := by
          intro j hj hcore hclus i' hi'
          by_cases hji : j = i
          · subst hji
            by_cases hii : i' = j
            · subst hii
              exact Or.inl ⟨nextC, getL_set_self _ hil⟩
            · exact Or.inr (List.mem_filter.mpr ⟨hi', decide_eq_true hii⟩)
          · obtain ⟨d, hgd⟩ := hclus
            rw [getL_set_ne _ hji] at hgd
            obtain ⟨d', hd'⟩ := hinv.outer j hj hcore ⟨d, hgd⟩ i' hi'
            have hii : i' ≠ i := fun h => by
              rw [h, hu] at hd'
              exact Label.noConfusion hd'
            exact Or.inl ⟨d', by rw [getL_set_ne _ hii]; exact hd'⟩
        have hinv2 : EngineInv pts eps minS rest
            (expand pts eps minS nextC (labels.set i (.Cluster nextC))
              ((neighbors pts eps i).filter (fun j => decide (j ≠ i))))
            (nextC + 1) := by
          refine ⟨by rw [length_expand]; exact hlen1, ?_, ?_, ?_, ?_, ?_, ?_, ?_⟩
          · intro j hj hsj
            exact hnnc1 j hj (getL_expand_noise hsj)
          · intro j hsj
            have hsj1 := getL_expand_unvisited hsj
            have hji : j ≠ i := fun h => by
              rw [h, getL_set_self _ hil] at hsj1
              exact Label.noConfusion hsj1
            rw [getL_set_ne _ hji] at hsj1
            rcases List.mem_cons.mp (hinv.unvisited_mem j hsj1) with h | h
            · exact absurd h hji
            · exact h
          · intro j d hsj
            rcases getL_expand_cases pts eps minS nextC _ _ j with hs | hs
            · rw [hsj] at hs
              rcases getL_set_cases labels i j (.Cluster nextC) with hs2 | ⟨hji, hs2⟩
              · have := hinv.id_lt j d (by rw [← hs2, ← hs])
                omega
              · rw [← hs] at hs2
                have : d = nextC := Label.Cluster.inj hs2
                omega
            · rw [hsj] at hs
              have : d = nextC := Label.Cluster.inj hs
              omega
          · intro d hd
            rcases Nat.lt_succ_iff_lt_or_eq.mp hd with hd' | hd'
            · obtain ⟨j, hj, hgj⟩ := hinv.id_ex d hd'
              have hji : j ≠ i := fun h => by
                rw [h, hu] at hgj
                exact Label.noConfusion hgj
              refine ⟨j, hj, getL_expand_cluster_stable ?_⟩
              rw [getL_set_ne _ hji]
              exact hgj
            · subst hd'
              exact ⟨i, hin, getL_expand_cluster_stable (getL_set_self _ hil)⟩
          · exact expand_fwd hlen1 hfwd1 hque1
          · exact expand_outer_inv hlen1 hnnc1 hstinv1
          · intro j hj
            exact hinv.bound j (List.mem_cons_of_mem _ hj)
        obtain ⟨C', hC1, hC2⟩ := ih _ (nextC + 1) hinv2
        exact ⟨C', Nat.le_trans (Nat.le_succ _) hC1, hC2⟩
    · rw [dbscanGo_cons_skip rest nextC hu]
      refine ih labels nextC ?_
      refine ⟨hinv.len_eq, hinv.noise_not_core, ?_, hinv.id_lt, hinv.id_ex,
        hinv.fwd, hinv.outer, ?_⟩
      · intro j hsj
        rcases List.mem_cons.mp (hinv.unvisited_mem j hsj) with h | h
        · subst h
          exact absurd hsj hu
        · exact h
      · intro j hj
        exact hinv.bound j (List.mem_cons_of_mem _ hj)

theorem getL_replicate (n j : Nat) :
    getL (List.replicate n Label.Unvisited) j =
      if j < n then .Unvisited else .Noise := by
  induction n generalizing j with
  | zero => simp [getL]
  | succ m ih =>
    cases j with
    | zero => simp [getL, List.replicate_succ]
    | succ k =>
      rw [List.replicate_succ]
      have hstep : getL (Label.Unvisited :: List.replicate m .Unvisited) (k + 1) =
          getL (List.replicate m .Unvisited) k := by
        simp [getL]
      rw [hstep, ih]
      simp [Nat.succ_lt_succ_iff]

/-- The engine invariant holds at the start of the outer loop. -/
theorem engineInv_init (pts : List Point) (eps : ℚ) (minS : Nat) :
    EngineInv pts eps minS (List.range pts.length)
      (List.replicate pts.length .Unvisited) 0 := by
  refine ⟨List.length_replicate _ _, ?_, ?_, ?_, ?_, ?_, ?_, ?_⟩
  · intro j hj hn
    rw [getL_replicate, if_pos hj] at hn
    exact absurd hn (fun h => Label.noConfusion h)
  · intro j hu
    by_cases hj : j < pts.length
    · exact List.mem_range.mpr hj
    · rw [getL_replicate, if_neg hj] at hu
      exact absurd hu (fun h => Label.noConfusion h)
  · intro j d hc
    rw [getL_replicate] at hc
    split at hc <;> exact Label.noConfusion hc
  · intro d hd
    exact absurd hd (Nat.not_lt_zero d)
  · intro i d hc
    rw [getL_replicate] at hc
    split at hc <;> exact Label.noConfusion hc
  · intro j hj hcore hclus i hi
    obtain ⟨d, hc⟩ := hclus
    rw [getL_replicate] at hc
    split at hc <;> exact Label.noConfusion hc
  · intro i hi
    exact List.mem_range.mp hi

/-- Completed run of the engine: the invariant with nothing pending. -/
theorem dbscan_inv_final {pts : List Point} {eps : ℚ} {minS : Nat}
    (hminS : 1 ≤ minS) :
    ∃ C, EngineInv pts eps minS [] (dbscan pts eps minS) C := by
  obtain ⟨C, _, h⟩ := dbscanGo_inv hminS (List.range pts.length)
    (List.replicate pts.length .Unvisited) 0 (engineInv_init pts eps minS)
  exact ⟨C, h⟩

theorem length_dbscanGo (pts : List Point) (eps : ℚ) (minS : Nat) :
    ∀ (is : List Nat) (labels : List Label) (nextC : Nat),
      (dbscanGo pts eps minS is labels nextC).length = labels.length := by
  intro is
  induction is with
  | nil =>
    intro labels nextC
    rw [dbscanGo_nil]
  | cons i rest ih =>
    intro labels nextC
    by_cases hu : getL labels i = .Unvisited
    · by_cases hnc : (neighbors pts eps i).length < minS
      · rw [dbscanGo_cons_noise rest nextC hu hnc, ih, List.length_set]
      · rw [dbscanGo_cons_core rest nextC hu hnc, ih, length_expand, List.length_set]
    · rw [dbscanGo_cons_skip rest nextC hu, ih]

theorem length_dbscan (pts : List Point) (eps : ℚ) (minS : Nat) :
    (dbscan pts eps minS).length = pts.length := by
  unfold dbscan
  rw [length_dbscanGo, List.length_replicate]

/-- At completion no point is left `Unvisited` (spec section 3). -/
theorem final_no_unvisited {pts : List Point} {eps : ℚ} {minS C : Nat}
    {labels : List Label} (h : EngineInv pts eps minS [] labels C) (j : Nat) :
    getL labels j ≠ .Unvisited :=
  fun hj => absurd (h.unvisited_mem j hj) (List.not_mem_nil j)

/-- Every point within epsilon of a core point ends up clustered. -/
theorem final_clustered_of_reachable {pts : List Point} {eps : ℚ}
    {minS C : Nat} {labels : List Label}
    (h : EngineInv pts eps minS [] labels C) {i : Nat}
    (hr : reachable pts eps minS i) : ∃ d, getL labels i = .Cluster d := by
  obtain ⟨j, hj, hcore, hmem⟩ := hr
  obtain ⟨d, hd⟩ : ∃ d, getL labels j = .Cluster d := by
    cases hl : getL labels j with
    | Unvisited => exact absurd hl (final_no_unvisited h j)
    | Noise => exact absurd hcore (h.noise_not_core j hj hl)
    | Cluster d => exact ⟨d, rfl⟩
  exact h.outer j hj hcore ⟨d, hd⟩ i hmem

/-- Characterization of the noise output: a point's final numeric label is
`-1` exactly when it is not within epsilon of any core point. -/
theorem final_noise_iff {pts : List Point} {eps : ℚ} {minS C : Nat}
    {labels : List Label} (h : EngineInv pts eps minS [] labels C) (i : Nat) :
    labelToInt (getL labels i) = -1 ↔ ¬ reachable pts eps minS i := by
  constructor
  · intro hm hr
    obtain ⟨d, hd⟩ := final_clustered_of_reachable h hr
    rw [hd] at hm
    simp only [labelToInt] at hm
    omega
  · intro hnr
    cases hl : getL labels i with
    | Unvisited => exact absurd hl (final_no_unvisited h i)
    | Noise => rfl
    | Cluster d => exact absurd (h.fwd i d hl) hnr

theorem labelToInt_neg_or_nonneg (l : Label) :
    labelToInt l = -1 ∨ 0 ≤ labelToInt l := by
  cases l with
  | Unvisited => exact Or.inl rfl
  | Noise => exact Or.inl rfl
  | Cluster d => exact Or.inr (Int.ofNat_nonneg d)

theorem getL_eq_getElem {labels : List Label} {j : Nat} (h : j < labels.length) :
    getL labels j = labels[j] := by
  induction labels generalizing j with
  | nil => simp at h
  | cons a t ih =>
    cases j with
    | zero => rfl
    | succ k =>
      simp only [getL, List.getD_cons_succ, List.getElem_cons_succ]
      exact ih (Nat.lt_of_succ_lt_succ h)

theorem cluster_mem_iff {labels : List Label} {c : Nat} :
    Label.Cluster c ∈ labels ↔
      ∃ j, j < labels.length ∧ getL labels j = .Cluster c := by
  rw [List.mem_iff_getElem]
  constructor
  · rintro ⟨i, hlt, he⟩
    exact ⟨i, hlt, by rw [getL_eq_getElem hlt, he]⟩
  · rintro ⟨j, hj, he⟩
    exact ⟨j, hj, by rw [← getL_eq_getElem hj, he]⟩

theorem intCast_mem_map_labelToInt {labels : List Label} {c : Nat} :
    ((c : Nat) : Int) ∈ labels.map labelToInt ↔ Label.Cluster c ∈ labels := by
  constructor
  · intro hm
    obtain ⟨l, hl, he⟩ := List.mem_map.mp hm
    cases l with
    | Unvisited =>
      exfalso
      simp only [labelToInt] at he
      omega
    | Noise =>
      exfalso
      simp only [labelToInt] at he
      omega
    | Cluster d =>
      simp only [labelToInt] at he
      have hd : d = c := by omega
      rw [← hd]
      exact hl
  · intro hm
    have := List.mem_map_of_mem labelToInt hm
    simpa [labelToInt] using this

theorem perform_clustering_short {pts : List Point} (eps : ℚ) (m : Nat)
    (h : pts.length < 2) :
    perform_clustering pts eps m = .ok (List.replicate pts.length (-1)) := by
  unfold perform_clustering
  rw [if_pos h]

theorem perform_clustering_run {pts : List Point} {eps : ℚ} {m : Nat}
    (h2 : ¬ pts.length < 2) (hv : 0 < eps ∧ 1 ≤ m) :
    perform_clustering pts eps m =
      .ok ((dbscan pts (eps / 111) m).map labelToInt) := by
  unfold perform_clustering
  rw [if_neg h2, if_pos hv]

theorem perform_clustering_invalid {pts : List Point} {eps : ℚ} {m : Nat}
    (h2 : ¬ pts.length < 2) (hv : ¬ (0 < eps ∧ 1 ≤ m)) :
    perform_clustering pts eps m = .error .invalidParams := by
  unfold perform_clustering
  rw [if_neg h2, if_neg hv]

/-- Case analysis of a successful clustering call. -/
theorem perform_clustering_ok_elim {pts : List Point} {eps : ℚ} {m : Nat}
    {out : List Int} (h : perform_clustering pts eps m = .ok out) :
    (pts.length < 2 ∧ out = List.replicate pts.length (-1)) ∨
      (2 ≤ pts.length ∧ 0 < eps ∧ 1 ≤ m ∧
        out = (dbscan pts (eps / 111) m).map labelToInt) := by
  by_cases hs : pts.length < 2
  · rw [perform_clustering_short eps m hs] at h
    exact Or.inl ⟨hs, (Except.ok.inj h).symm⟩
  · by_cases hv : 0 < eps ∧ 1 ≤ m
    · rw [perform_clustering_run hs hv] at h
      exact Or.inr ⟨Nat.le_of_not_lt hs, hv.1, hv.2, (Except.ok.inj h).symm⟩
    · rw [perform_clustering_invalid hs hv] at h
      exact absurd h (fun hh => Except.noConfusion hh)

/-- Raising minSamples only shrinks the set of core points, so one-hop
reachability from a core point is antitone in minSamples. -/
theorem reachable_mono {pts : List Point} {eps : ℚ} {m₁ m₂ i : Nat}
    (h : m₁ ≤ m₂) : reachable pts eps m₂ i → reachable pts eps m₁ i := by
  rintro ⟨j, hj, hc, hm⟩
  exact ⟨j, hj, Nat.le_trans h hc, hm⟩

/-- Pointwise comparison of label arrays bounds the counts. -/
theorem countP_le_of_getL (p : Label → Bool) :
    ∀ (l₁ l₂ : List Label), l₁.length = l₂.length →
      (∀ i, i < l₁.length → p (getL l₁ i) = true → p (getL l₂ i) = true) →
      l₁.countP p ≤ l₂.countP p := by
  intro l₁
  induction l₁ with
  | nil =>
    intro l₂ _ _
    simp
  | cons a t ih =>
    intro l₂ hlen hp
    cases l₂ with
    | nil => simp at hlen
    | cons b t₂ =>
      rw [List.countP_cons, List.countP_cons]
      have hh : p a = true → p b = true := hp 0 (by simp)
      have ht : t.countP p ≤ t₂.countP p := by
        refine ih t₂ (by simpa using hlen) ?_
        intro i hi hpi
        exact hp (i + 1) (by simpa using Nat.succ_lt_succ hi) hpi
      by_cases hpa : p a = true
      · rw [hpa, hh hpa]
        omega
      · have ha0 : (if p a = true then 1 else 0) = 0 := by
          rw [if_neg hpa]
        rw [ha0]
        omega

theorem noise_count_map (labels : List Label) :
    noise_count (labels.map labelToInt) =
      labels.countP (fun l => labelToInt l == -1) := by
  unfold noise_count
  rw [← List.countP_eq_length_filter, List.countP_map]
  rfl

/-- With minSamples = 1 and a positive radius the outer loop never takes
its noise branch, so no label is ever `Noise`. -/
theorem dbscanGo_no_noise {pts : List Point} {eps : ℚ} (heps : 0 < eps) :
    ∀ (is : List Nat) (labels : List Label) (nextC : Nat),
      (∀ i ∈ is, i < pts.length) →
      (∀ j, j < pts.length → getL labels j ≠ .Noise) →
      ∀ j, j < pts.length → getL (dbscanGo pts eps 1 is labels nextC) j ≠ .Noise := by
  intro is
  induction is with
  | nil =>
    intro labels nextC _ hnn j hj
    rw [dbscanGo_nil]
    exact hnn j hj
  | cons i rest ih =>
    intro labels nextC hb hnn j hj
    have hi : i < pts.length := hb i (List.mem_cons_self _ _)
    by_cases hu : getL labels i = .Unvisited
    · by_cases hnc : (neighbors pts eps i).length < 1
      · exfalso
        have hm := self_mem_neighbors hi (le_of_lt heps)
        have := List.length_pos_of_mem hm
        omega
      · rw [dbscanGo_cons_core rest nextC hu hnc]
        refine ih _ _ (fun i' hi' => hb i' (List.mem_cons_of_mem _ hi')) ?_ j hj
        intro j' hj' hnoise
        have h1 := getL_expand_noise hnoise
        have hji : j' ≠ i := by
          intro hh
          rw [hh] at h1
          rcases getL_set_cases labels i i (.Cluster nextC) with hs | ⟨_, hs⟩
          · rw [hs, hu] at h1
            exact Label.noConfusion h1
          · rw [hs] at h1
            exact Label.noConfusion h1
        rw [getL_set_ne _ hji] at h1
        exact hnn j' hj' h1
    · rw [dbscanGo_cons_skip rest nextC hu]
      exact ih _ _ (fun i' hi' => hb i' (List.mem_cons_of_mem _ hi')) hnn j hj

/-- Entire-run version of the no-noise property for minSamples = 1. -/
theorem dbscan_no_noise {pts : List Point} {eps : ℚ} (heps : 0 < eps)
    (j : Nat) (hj : j < pts.length) : getL (dbscan pts eps 1) j ≠ .Noise := by
  unfold dbscan
  refine dbscanGo_no_noise heps (List.range pts.length)
    (List.replicate pts.length .Unvisited) 0
    (fun i hi => List.mem_range.mp hi) ?_ j hj
  intro j' hj' hn
  rw [getL_replicate, if_pos hj'] at hn
  exact Label.noConfusion hn

/-- C1: for every input PointSet, a successful clustering call returns one
integer per input point, in input order, each either -1 (noise) or a
non-negative cluster id, so no point is left without a label.  (A call
with parameters outside the spec's domain of section 3 reports an error
instead of returning any sequence.) -/
theorem clustering_output_shape (pts : List Point) (eps : ℚ) (m : Nat)
    (out : List Int) (h : perform_clustering pts eps m = .ok out) :
    out.length = pts.length ∧ ∀ x ∈ out, x = -1 ∨ 0 ≤ x := by
  rcases perform_clustering_ok_elim h with ⟨hs, ho⟩ | ⟨h2, hv1, hv2, ho⟩
  · subst ho
    refine ⟨List.length_replicate _ _, ?_⟩
    intro x hx
    exact Or.inl (List.eq_of_mem_replicate hx)
  · subst ho
    refine ⟨by rw [List.length_map, length_dbscan], ?_⟩
    intro x hx
    obtain ⟨l, _, rfl⟩ := List.mem_map.mp hx
    exact labelToInt_neg_or_nonneg l

/-- Witness for C1 at a concrete one-point input. -/
theorem clustering_output_shape_witness :
    [(-1 : Int)].length = [(⟨0, 0⟩ : Point)].length ∧
      ∀ x ∈ [(-1 : Int)], x = -1 ∨ 0 ≤ x :=
  clustering_output_shape [⟨0, 0⟩] 1 5 [-1] rfl

/-- C3: a PointSet of size 0 or 1 yields, for every epsilon and
minSamples, a successful output of matching length with every entry -1. -/
theorem boundary_small_input (pts : List Point) (eps : ℚ) (m : Nat)
    (h : pts.length ≤ 1) :
    perform_clustering pts eps m = .ok (List.replicate pts.length (-1)) ∧
      ∀ x ∈ List.replicate pts.length (-1 : Int), x = -1 := by
  refine ⟨perform_clustering_short eps m (by omega), ?_⟩
  intro x hx
  exact List.eq_of_mem_replicate hx

/-- Witness for C3 at the empty input with out-of-domain parameters. -/
theorem boundary_small_input_witness :
    perform_clustering ([] : List Point) (-5) 0 =
        .ok (List.replicate ([] : List Point).length (-1)) ∧
      ∀ x ∈ List.replicate ([] : List Point).length (-1 : Int), x = -1 :=
  boundary_small_input [] (-5) 0 (by decide)

/-- C5: clustering is deterministic — two runs on the same PointSet with
the same epsilon and minSamples produce identical label sequences. -/
theorem clustering_deterministic (pts₁ pts₂ : List Point) (eps₁ eps₂ : ℚ)
    (m₁ m₂ : Nat) (hp : pts₁ = pts₂) (he : eps₁ = eps₂) (hm : m₁ = m₂) :
    perform_clustering pts₁ eps₁ m₁ = perform_clustering pts₂ eps₂ m₂ := by
  rw [hp, he, hm]

/-- Witness for C5 at a concrete input. -/
theorem clustering_deterministic_witness :
    perform_clustering [(⟨3, 4⟩ : Point)] 2 7 = perform_clustering [⟨3, 4⟩] 2 7 :=
  clustering_deterministic [⟨3, 4⟩] [⟨3, 4⟩] 2 2 7 7 rfl rfl rfl

/-- C9: fewer than two points short-circuits before the engine and its
parameter validation, so the call succeeds for every epsilon and
minSamples — including values the spec deems invalid — while the same
invalid parameters are rejected once two or more points reach the
engine. -/
theorem short_input_bypasses_validation (pts : List Point) (eps : ℚ) (m : Nat) :
    (pts.length < 2 →
      perform_clustering pts eps m = .ok (List.replicate pts.length (-1))) ∧
      (2 ≤ pts.length → ¬ (0 < eps ∧ 1 ≤ m) →
        perform_clustering pts eps m = .error .invalidParams) := by
  constructor
  · intro h
    exact perform_clustering_short eps m h
  · intro h2 hv
    exact perform_clustering_invalid (by omega) hv

/-- Witness for C9: epsilon = -1 and minSamples = 0 succeed on one point
and are rejected on two points. -/
theorem short_input_bypasses_validation_witness :
    perform_clustering [(⟨0, 0⟩ : Point)] (-1) 0 =
        .ok (List.replicate [(⟨0, 0⟩ : Point)].length (-1)) ∧
      perform_clustering [(⟨0, 0⟩ : Point), ⟨1, 1⟩] (-1) 0 = .error .invalidParams :=
  ⟨(short_input_bypasses_validation [⟨0, 0⟩] (-1) 0).1 (by decide),
    (short_input_bypasses_validation [⟨0, 0⟩, ⟨1, 1⟩] (-1) 0).2 (by decide)
      (fun hv => Nat.not_succ_le_zero 0 hv.2)⟩

/-- C4: whenever a successful output contains a non-negative cluster id,
the set of ids occurring in it is exactly 0..k for some k. -/
theorem cluster_ids_contiguous (pts : List Point) (eps : ℚ) (m : Nat)
    (out : List Int) (h : perform_clustering pts eps m = .ok out) :
    contiguousIds out := by
  rcases perform_clustering_ok_elim h with ⟨hs, ho⟩ | ⟨h2, hv1, hv2, ho⟩
  · subst ho
    rintro ⟨x, hx, hx0⟩
    have := List.eq_of_mem_replicate hx
    omega
  · subst ho
    obtain ⟨C, hinv⟩ := @dbscan_inv_final pts (eps / 111) m hv2
    intro hex
    have hmem_iff : ∀ c : Nat,
        ((c : Int) ∈ (dbscan pts (eps / 111) m).map labelToInt ↔ c < C) := by
      intro c
      rw [intCast_mem_map_labelToInt, cluster_mem_iff]
      constructor
      · rintro ⟨j, hj, hg⟩
        exact hinv.id_lt j c hg
      · intro hc
        obtain ⟨j, hj, hg⟩ := hinv.id_ex c hc
        exact ⟨j, by rw [hinv.len_eq]; exact hj, hg⟩
    obtain ⟨x, hx, hx0⟩ := hex
    obtain ⟨l, hl, rfl⟩ := List.mem_map.mp hx
    cases l with
    | Unvisited => exact absurd hx0 (by norm_num [labelToInt])
    | Noise => exact absurd hx0 (by norm_num [labelToInt])
    | Cluster d =>
      have hdC : d < C := (hmem_iff d).mp hx
      refine ⟨C - 1, fun c => ?_⟩
      rw [hmem_iff c]
      omega

/-- Witness for C4 at a concrete one-point input (all-noise output,
vacuous contiguity). -/
theorem cluster_ids_contiguous_witness : contiguousIds [-1] :=
  cluster_ids_contiguous [⟨0, 0⟩] 1 5 [-1] rfl

/-- Counterexample to C2 as stated: the one-point PointSet is non-empty,
yet with minSamples = 1 the short-circuit of `perform_clustering`
(src/main.rs lines 126-128) labels its point -1, so the noise count is 1,
not 0. -/
theorem minsamples_one_counterexample :
    perform_clustering [(⟨0, 0⟩ : Point)] 1 1 = .ok [-1] ∧
      noise_count [-1] ≠ 0 :=
  ⟨rfl, by decide⟩

/-- C2 (amended): for every PointSet of size at least 2 and epsilon > 0,
running with minSamples = 1 makes every point a core point: the run
succeeds, its noise count is 0 and the output obeys the contiguous
cluster-id invariant. -/
theorem minsamples_one_no_noise (pts : List Point) (eps : ℚ)
    (h2 : 2 ≤ pts.length) (heps : 0 < eps) :
    ∃ out, perform_clustering pts eps 1 = .ok out ∧ noise_count out = 0 ∧
      contiguousIds out := by
  have hrun := @perform_clustering_run pts eps 1 (by omega) ⟨heps, Nat.le_refl 1⟩
  refine ⟨_, hrun, ?_, cluster_ids_contiguous pts eps 1 _ hrun⟩
  obtain ⟨C, hinv⟩ := @dbscan_inv_final pts (eps / 111) 1 (Nat.le_refl 1)
  have heps' : 0 < eps / 111 := by positivity
  unfold noise_count
  rw [List.length_eq_zero]
  rw [List.filter_eq_nil_iff]
  intro x hx
  obtain ⟨l, hl, rfl⟩ := List.mem_map.mp hx
  obtain ⟨j, hlt, hEq⟩ := List.mem_iff_getElem.mp hl
  have hjn : j < pts.length := by
    rw [← length_dbscan pts (eps / 111) 1]
    exact hlt
  have hgl : getL (dbscan pts (eps / 111) 1) j = l := by
    rw [getL_eq_getElem hlt, hEq]
  cases l with
  | Unvisited => exact absurd hgl (fun hh => final_no_unvisited hinv j hh)
  | Noise => exact absurd hgl (fun hh => dbscan_no_noise heps' j hjn hh)
  | Cluster d => simp [labelToInt]

/-- Witness for C2 (amended) at a concrete two-point input. -/
theorem minsamples_one_no_noise_witness :
    ∃ out, perform_clustering [(⟨0, 0⟩ : Point), ⟨0, 0⟩] 1 1 = .ok out ∧
      noise_count out = 0 ∧ contiguousIds out :=
  minsamples_one_no_noise [⟨0, 0⟩, ⟨0, 0⟩] 1 (by decide) one_pos

/-- C6: with epsilon fixed, raising minSamples never decreases the number
of points labeled -1. -/
theorem noise_monotone_minsamples (pts : List Point) (eps : ℚ)
    (m₁ m₂ : Nat) (o₁ o₂ : List Int) (hm : m₁ ≤ m₂)
    (h₁ : perform_clustering pts eps m₁ = .ok o₁)
    (h₂ : perform_clustering pts eps m₂ = .ok o₂) :
    noise_count o₁ ≤ noise_count o₂ := by
  rcases perform_clustering_ok_elim h₁ with ⟨hs₁, ho₁⟩ | ⟨hl₁, hv₁, hm₁, ho₁⟩
  · rcases perform_clustering_ok_elim h₂ with ⟨_, ho₂⟩ | ⟨hl₂, _, _, _⟩
    · rw [ho₁, ho₂]
    · omega
  · rcases perform_clustering_ok_elim h₂ with ⟨hs₂, _⟩ | ⟨_, _, hm₂, ho₂⟩
    · omega
    · subst ho₁
      subst ho₂
      obtain ⟨C₁, hinv₁⟩ := @dbscan_inv_final pts (eps / 111) m₁ hm₁
      obtain ⟨C₂, hinv₂⟩ := @dbscan_inv_final pts (eps / 111) m₂ hm₂
      rw [noise_count_map, noise_count_map]
      refine countP_le_of_getL _ _ _ ?_ ?_
      · rw [length_dbscan, length_dbscan]
      · intro i hi hp
        rw [length_dbscan] at hi
        rw [beq_iff_eq] at hp ⊢
        rw [final_noise_iff hinv₁ i] at hp
        rw [final_noise_iff hinv₂ i]
        exact fun hr => hp (reachable_mono hm hr)

/-- Witness for C6 at a concrete one-point input. -/
theorem noise_monotone_minsamples_witness :
    noise_count [-1] ≤ noise_count [-1] :=
  noise_monotone_minsamples [⟨0, 0⟩] 1 2 3 [-1] [-1] (by decide) rfl rfl

theorem foldl_max_all_neg :
    ∀ (l : List Int), (∀ x ∈ l, x = -1) → List.foldl max (-1) l = -1 := by
  intro l
  induction l with
  | nil => intro; rfl
  | cons a t ih =>
    intro h
    rw [List.foldl_cons, h a (List.mem_cons_self _ _), max_self]
    exact ih (fun x hx => h x (List.mem_cons_of_mem _ hx))

/-- On sequences whose entries are at least -1 (every label sequence), the
`max().unwrap_or(&-1)` of the source agrees with the spec's maximum label
value. -/
theorem maxD_eq_maxLabel {l : List Int} (h : ∀ x ∈ l, -1 ≤ x) :
    l.max?.getD (-1) = maxLabel l := by
  cases l with
  | nil => rfl
  | cons a as =>
    have ha : -1 ≤ a := h a (List.mem_cons_self _ _)
    show as.foldl max a = List.foldl max (-1) (a :: as)
    rw [List.foldl_cons, max_eq_right ha]

/-- C7: the reported summary is a pure function of the final label
sequence: clusterCount is the maximum label value plus one — which is 0
when every label is -1 — and noiseCount is the number of labels equal
to -1. -/
theorem summary_formulas (pts : List Point) (eps : ℚ) (m : Nat)
    (out : List Int) (h : perform_clustering pts eps m = .ok out) :
    cluster_count out = maxLabel out + 1 ∧
      ((∀ x ∈ out, x = -1) → cluster_count out = 0) ∧
      noise_count out = out.countP (fun x => x == -1) := by
  have hge : ∀ x ∈ out, -1 ≤ x := by
    intro x hx
    rcases (clustering_output_shape pts eps m out h).2 x hx with h1 | h1 <;> omega
  refine ⟨?_, ?_, ?_⟩
  · unfold cluster_count
    rw [maxD_eq_maxLabel hge]
  · intro hall
    unfold cluster_count
    rw [maxD_eq_maxLabel hge]
    unfold maxLabel
    rw [foldl_max_all_neg out hall]
    rfl
  · unfold noise_count
    rw [List.countP_eq_length_filter]

/-- Witness for C7 at a concrete one-point input. -/
theorem summary_formulas_witness :
    cluster_count [-1] = maxLabel [-1] + 1 ∧ cluster_count [-1] = 0 ∧
      noise_count [-1] = [(-1 : Int)].countP (fun x => x == -1) := by
  have hs := summary_formulas [⟨0, 0⟩] 1 5 [-1] rfl
  exact ⟨hs.1, hs.2.1 (by decide), hs.2.2⟩

theorem findCoordAux_none {possible_names : List String} :
    ∀ (headers : List String) (i : Nat),
      (∀ h ∈ headers, ∀ nm ∈ possible_names, eq_ignore_ascii_case h nm = false) →
      findCoordAux possible_names headers i = none := by
  intro headers
  induction headers with
  | nil =>
    intro i _
    rfl
  | cons h rest ih =>
    intro i hno
    unfold findCoordAux
    have hany : (possible_names.any fun name => eq_ignore_ascii_case h name) = false := by
      rw [List.any_eq_false]
      intro nm hnm
      rw [hno h (List.mem_cons_self _ _) nm hnm]
      exact Bool.false_ne_true
    rw [hany]
    simp only [Bool.false_eq_true, if_false]
    exact ih (i + 1) (fun h' hh nm hnm => hno h' (List.mem_cons_of_mem _ hh) nm hnm)

theorem find_coordinate_column_not_found {headers possible_names : List String}
    (hno : ∀ h ∈ headers, ∀ nm ∈ possible_names, eq_ignore_ascii_case h nm = false) :
    find_coordinate_column headers possible_names =
      .error (.columnNotFound possible_names headers) := by
  unfold find_coordinate_column
  rw [findCoordAux_none headers 0 hno]

theorem parseRow_ok_parses {parse : String → Option ℚ} {latIdx lonIdx : Nat}
    {headers row : List String} {loc : ℚ × ℚ × List (String × String)}
    (h : parseRow parse latIdx lonIdx headers row = .ok loc) :
    (∃ s a, row.get? latIdx = some s ∧ parse s = some a) ∧
      (∃ t b, row.get? lonIdx = some t ∧ parse t = some b) := by
  unfold parseRow at h
  split at h
  · exact Except.noConfusion h
  · rename_i s hs
    split at h
    · exact Except.noConfusion h
    · rename_i a ha
      split at h
      · exact Except.noConfusion h
      · rename_i t ht
        split at h
        · exact Except.noConfusion h
        · rename_i b hb
          exact ⟨⟨s, a, hs, ha⟩, ⟨t, b, ht, hb⟩⟩

theorem parseRow_ok_extra {parse : String → Option ℚ} {latIdx lonIdx : Nat}
    {headers row : List String} {loc : ℚ × ℚ × List (String × String)}
    (h : parseRow parse latIdx lonIdx headers row = .ok loc) :
    loc.2.2 = buildExtra headers row := by
  unfold parseRow at h
  split at h
  · exact Except.noConfusion h
  · split at h
    · exact Except.noConfusion h
    · split at h
      · exact Except.noConfusion h
      · split at h
        · exact Except.noConfusion h
        · rw [← Except.ok.inj h]

theorem readRows_ok_parses {parse : String → Option ℚ} {latIdx lonIdx : Nat}
    {headers : List String} :
    ∀ {rows : List (List String)} {locs},
      readRows parse latIdx lonIdx headers rows = .ok locs →
      ∀ row ∈ rows,
        (∃ s a, row.get? latIdx = some s ∧ parse s = some a) ∧
          (∃ t b, row.get? lonIdx = some t ∧ parse t = some b) := by
  intro rows
  induction rows with
  | nil =>
    intro locs _ row hrow
    exact absurd hrow (List.not_mem_nil row)
  | cons row0 rest ih =>
    intro locs h row hrow
    unfold readRows at h
    split at h
    · exact Except.noConfusion h
    · rename_i loc hp
      split at h
      · exact Except.noConfusion h
      · rename_i locs' hr
        rcases List.mem_cons.mp hrow with hh | hh
        · subst hh
          exact parseRow_ok_parses hp
        · exact ih hr row hh

/-- Rows and read locations correspond one to one; each location's
attribute map is built from its row. -/
theorem readRows_forall₂ {parse : String → Option ℚ} {latIdx lonIdx : Nat}
    {headers : List String} :
    ∀ {rows : List (List String)} {locs},
      readRows parse latIdx lonIdx headers rows = .ok locs →
      List.Forall₂ (fun (row : List String) loc =>
        loc.2.2 = buildExtra headers row) rows locs := by
  intro rows
  induction rows with
  | nil =>
    intro locs h
    have : locs = [] := (Except.ok.inj h).symm
    subst this
    exact List.Forall₂.nil
  | cons row0 rest ih =>
    intro locs h
    unfold readRows at h
    split at h
    · exact Except.noConfusion h
    · rename_i loc hp
      split at h
      · exact Except.noConfusion h
      · rename_i locs' hr
        have hcons : locs = loc :: locs' := (Except.ok.inj h).symm
        subst hcons
        exact List.Forall₂.cons (parseRow_ok_extra hp) (ih hr)

/-- Successful reads factor through both column searches and the row
loop. -/
theorem read_csv_ok_elim {parse : String → Option ℚ} {c : Csv}
    {locs : List (ℚ × ℚ × List (String × String))}
    (h : read_csv parse c = .ok locs) :
    ∃ latIdx lonIdx,
      find_coordinate_column c.headers latCandidates = .ok latIdx ∧
      find_coordinate_column c.headers lonCandidates = .ok lonIdx ∧
      readRows parse latIdx lonIdx c.headers c.rows = .ok locs := by
  unfold read_csv at h
  cases hf : find_coordinate_column c.headers latCandidates with
  | error e =>
    rw [hf] at h
    exact Except.noConfusion h
  | ok latIdx =>
    rw [hf] at h
    cases hg : find_coordinate_column c.headers lonCandidates with
    | error e =>
      rw [hg] at h
      exact Except.noConfusion h
    | ok lonIdx =>
      rw [hg] at h
      exact ⟨latIdx, lonIdx, rfl, rfl, h⟩

/-- C8: when no header matches a required coordinate column's candidate
list (case-insensitively) — the latitude list, or the longitude list once
a latitude column was found — reading fails, before clustering can run,
with an error enumerating both the candidates searched and the headers
found; and any successful read parsed every coordinate cell of every row,
so an unparsable coordinate cell is fatal. -/
theorem csv_reader_errors (parse : String → Option ℚ) (c : Csv) :
    ((∀ h ∈ c.headers, ∀ nm ∈ latCandidates, eq_ignore_ascii_case h nm = false) →
      read_csv parse c = .error (.columnNotFound latCandidates c.headers)) ∧
      (∀ latIdx, find_coordinate_column c.headers latCandidates = .ok latIdx →
        (∀ h ∈ c.headers, ∀ nm ∈ lonCandidates, eq_ignore_ascii_case h nm = false) →
        read_csv parse c = .error (.columnNotFound lonCandidates c.headers)) ∧
      (∀ locs, read_csv parse c = .ok locs →
        ∀ row ∈ c.rows, ∃ latIdx lonIdx,
          find_coordinate_column c.headers latCandidates = .ok latIdx ∧
          find_coordinate_column c.headers lonCandidates = .ok lonIdx ∧
          (∃ s a, row.get? latIdx = some s ∧ parse s = some a) ∧
          (∃ t b, row.get? lonIdx = some t ∧ parse t = some b)) := by
  refine ⟨?_, ?_, ?_⟩
  · intro hno
    unfold read_csv
    rw [find_coordinate_column_not_found hno]
  · intro latIdx hlat hno
    unfold read_csv
    rw [hlat, find_coordinate_column_not_found hno]
  · intro locs hok row hrow
    obtain ⟨latIdx, lonIdx, hf, hg, hr⟩ := read_csv_ok_elim hok
    obtain ⟨hlat, hlon⟩ := readRows_ok_parses hr row hrow
    exact ⟨latIdx, lonIdx, hf, hg, hlat, hlon⟩

/-- Witness for C8: a header set with no latitude candidate fails with the
enumerating error, one with a latitude header but no longitude candidate
fails with the enumerating longitude error, and a well-formed read exposes
parsed coordinates. -/
theorem csv_reader_errors_witness :
    read_csv (fun _ => none) ⟨["x", "y"], []⟩ =
        .error (.columnNotFound latCandidates ["x", "y"]) ∧
      read_csv (fun _ => none) ⟨["lat", "x"], []⟩ =
        .error (.columnNotFound lonCandidates ["lat", "x"]) ∧
      ∀ row ∈ [["1", "2"]], ∃ latIdx lonIdx,
        find_coordinate_column ["lat", "lon"] latCandidates = .ok latIdx ∧
        find_coordinate_column ["lat", "lon"] lonCandidates = .ok lonIdx ∧
        (∃ s a, row.get? latIdx = some s ∧
          (fun u => if u = "1" then some (1 : ℚ) else
            if u = "2" then some 2 else none) s = some a) ∧
        (∃ t b, row.get? lonIdx = some t ∧
          (fun u => if u = "1" then some (1 : ℚ) else
            if u = "2" then some 2 else none) t = some b) :=
  ⟨(csv_reader_errors (fun _ => none) ⟨["x", "y"], []⟩).1 (by decide),
    (csv_reader_errors (fun _ => none) ⟨["lat", "x"], []⟩).2.1 0 rfl (by decide),
    (csv_reader_errors
      (fun u => if u = "1" then some (1 : ℚ) else if u = "2" then some 2 else none)
      ⟨["lat", "lon"], [["1", "2"]]⟩).2.2 _ rfl⟩

theorem lookup_cons_self {p1 p2 k : String} {t : List (String × String)}
    (h : p1 = k) : List.lookup k ((p1, p2) :: t) = some p2 := by
  subst h
  simp [List.lookup]

theorem lookup_cons_ne {p1 p2 k : String} {t : List (String × String)}
    (h : p1 ≠ k) : List.lookup k ((p1, p2) :: t) = List.lookup k t := by
  have hb : (k == p1) = false := beq_eq_false_iff_ne.mpr (fun hh => h hh.symm)
  simp [List.lookup, hb]

theorem lookup_hmInsert_self (m : List (String × String)) (k v : String) :
    (hmInsert m k v).lookup k = some v := by
  induction m with
  | nil =>
    simp only [hmInsert, List.filter_nil, List.nil_append]
    exact lookup_cons_self rfl
  | cons p t ih =>
    obtain ⟨p1, p2⟩ := p
    by_cases hp : p1 = k
    · have hd : decide (p1 ≠ k) = false := by simp [hp]
      simp only [hmInsert, List.filter_cons, hd, Bool.false_eq_true, if_false]
      exact ih
    · have hd : decide (p1 ≠ k) = true := by simp [hp]
      simp only [hmInsert, List.filter_cons, hd, if_true, List.cons_append]
      rw [lookup_cons_ne hp]
      exact ih

theorem lookup_hmInsert_ne {k' k : String} (m : List (String × String))
    (v : String) (h : k' ≠ k) :
    (hmInsert m k v).lookup k' = m.lookup k' := by
  induction m with
  | nil =>
    simp only [hmInsert, List.filter_nil, List.nil_append]
    rw [lookup_cons_ne (fun hh => h hh.symm)]
  | cons p t ih =>
    obtain ⟨p1, p2⟩ := p
    by_cases hp : p1 = k
    · have hd : decide (p1 ≠ k) = false := by simp [hp]
      simp only [hmInsert, List.filter_cons, hd, Bool.false_eq_true, if_false]
      have hstep : List.lookup k'
          (List.filter (fun p => decide (p.1 ≠ k)) t ++ [(k, v)]) =
            List.lookup k' t := ih
      have hne : p1 ≠ k' := fun hh => h (hh ▸ hp)
      rw [hstep, lookup_cons_ne hne]
    · have hd : decide (p1 ≠ k) = true := by simp [hp]
      simp only [hmInsert, List.filter_cons, hd, if_true, List.cons_append]
      by_cases hpk : p1 = k'
      · rw [lookup_cons_self hpk, lookup_cons_self hpk]
      · rw [lookup_cons_ne hpk, lookup_cons_ne hpk]
        exact ih

theorem lookup_some_mem_keys {m : List (String × String)} {k v : String}
    (h : m.lookup k = some v) : k ∈ m.map Prod.fst := by
  induction m with
  | nil => simp [List.lookup] at h
  | cons p t ih =>
    obtain ⟨p1, p2⟩ := p
    by_cases hp : p1 = k
    · simp [hp]
    · rw [lookup_cons_ne hp] at h
      simp only [List.map_cons, List.mem_cons]
      exact Or.inr (ih h)

theorem mem_keys_hmInsert {m : List (String × String)} {k v h' : String}
    (hm : h' ∈ (hmInsert m k v).map Prod.fst) : h' ∈ m.map Prod.fst ∨ h' = k := by
  unfold hmInsert at hm
  rw [List.map_append, List.mem_append] at hm
  rcases hm with hm | hm
  · left
    obtain ⟨p, hp, he⟩ := List.mem_map.mp hm
    exact List.mem_map.mpr ⟨p, (List.mem_filter.mp hp).1, he⟩
  · right
    simpa using hm

theorem mem_enumFrom_of_get? :
    ∀ (row : List String) (n i : Nat) (f : String),
      row.get? i = some f → (n + i, f) ∈ row.enumFrom n := by
  intro row
  induction row with
  | nil =>
    intro n i f h
    simp at h
  | cons a t ih =>
    intro n i f h
    cases i with
    | zero =>
      have ha : a = f := by simpa using h
      subst ha
      simp [List.enumFrom]
    | succ k =>
      have hmem := ih (n + 1) k f (by simpa using h)
      have heq : n + (k + 1) = (n + 1) + k := by omega
      rw [heq]
      exact List.mem_cons_of_mem _ hmem

theorem mem_enum_of_get? {row : List String} {i : Nat} {f : String}
    (h : row.get? i = some f) : (i, f) ∈ row.enum := by
  have := mem_enumFrom_of_get? row 0 i f h
  simpa using this

theorem lookup_buildExtraAux_some (headers : List String) :
    ∀ (pairs : List (Nat × String)) (m : List (String × String)) (h : String),
      ((∃ v, m.lookup h = some v) ∨
        (∃ i f, (i, f) ∈ pairs ∧ headers.get? i = some h)) →
      ∃ v, (buildExtraAux headers pairs m).lookup h = some v := by
  intro pairs
  induction pairs with
  | nil =>
    intro m h hc
    rcases hc with ⟨v, hv⟩ | ⟨i, f, hmem, _⟩
    · exact ⟨v, hv⟩
    · exact absurd hmem (List.not_mem_nil _)
  | cons p rest ih =>
    intro m h hc
    obtain ⟨i, f⟩ := p
    unfold buildExtraAux
    cases hg : headers.get? i with
    | some h2 =>
      refine ih (hmInsert m h2 f) h ?_
      by_cases hh : h = h2
      · subst hh
        exact Or.inl ⟨f, lookup_hmInsert_self m h f⟩
      · rcases hc with ⟨v, hv⟩ | ⟨i', f', hmem, hget⟩
        · exact Or.inl ⟨v, by rw [lookup_hmInsert_ne m f hh]; exact hv⟩
        · rcases List.mem_cons.mp hmem with he | he
          · exfalso
            have hii : i' = i := congrArg Prod.fst he
            rw [hii, hg] at hget
            exact hh (Option.some.inj hget).symm
          · exact Or.inr ⟨i', f', he, hget⟩
    | none =>
      refine ih m h ?_
      rcases hc with hv | ⟨i', f', hmem, hget⟩
      · exact Or.inl hv
      · rcases List.mem_cons.mp hmem with he | he
        · exfalso
          have hii : i' = i := congrArg Prod.fst he
          rw [hii, hg] at hget
          exact Option.noConfusion hget
        · exact Or.inr ⟨i', f', he, hget⟩

/-- Every header of a full-length row has a binding in the record's
attribute map. -/
theorem lookup_buildExtra_some {headers row : List String} {h : String}
    (hlen : row.length = headers.length) (hmem : h ∈ headers) :
    ∃ v, (buildExtra headers row).lookup h = some v := by
  obtain ⟨i, hget⟩ := List.mem_iff_get?.mp hmem
  have hi : i < headers.length := by
    by_contra hni
    rw [List.get?_eq_none.mpr (Nat.le_of_not_lt hni)] at hget
    exact Option.noConfusion hget
  cases hf : row.get? i with
  | none =>
    exfalso
    have := List.get?_eq_none.mp hf
    omega
  | some f =>
    refine lookup_buildExtraAux_some headers row.enum [] h (Or.inr ⟨i, f, ?_, hget⟩)
    exact mem_enum_of_get? hf

theorem keys_buildExtraAux_subset (headers : List String) :
    ∀ (pairs : List (Nat × String)) (m : List (String × String)),
      (∀ k ∈ m.map Prod.fst, k ∈ headers) →
      ∀ h ∈ (buildExtraAux headers pairs m).map Prod.fst, h ∈ headers := by
  intro pairs
  induction pairs with
  | nil =>
    intro m hm h hh
    exact hm h hh
  | cons p rest ih =>
    intro m hm h hh
    obtain ⟨i, f⟩ := p
    unfold buildExtraAux at hh
    split at hh
    · rename_i h2 hg
      refine ih (hmInsert m h2 f) ?_ h hh
      intro k hk
      rcases mem_keys_hmInsert hk with hk' | hk'
      · exact hm k hk'
      · rw [hk']
        exact List.get?_mem hg
    · exact ih m hm h hh

theorem keys_buildExtra_subset {headers row : List String} {h : String}
    (hh : h ∈ (buildExtra headers row).map Prod.fst) : h ∈ headers := by
  refine keys_buildExtraAux_subset headers row.enum [] ?_ h hh
  intro k hk
  simp at hk

theorem mem_insertSorted (x s : String) :
    ∀ l, x ∈ insertSorted s l ↔ x = s ∨ x ∈ l := by
  intro l
  induction l with
  | nil => simp [insertSorted]
  | cons t rest ih =>
    unfold insertSorted
    by_cases hst : s ≤ t
    · rw [if_pos hst]
      simp [List.mem_cons]
    · rw [if_neg hst]
      simp only [List.mem_cons, ih]
      tauto

theorem sorted_insertSorted (s : String) :
    ∀ l, List.Sorted (· ≤ ·) l → List.Sorted (· ≤ ·) (insertSorted s l) := by
  intro l
  induction l with
  | nil =>
    intro
    simp [insertSorted]
  | cons t rest ih =>
    intro hs
    rw [List.sorted_cons] at hs
    unfold insertSorted
    by_cases hst : s ≤ t
    · rw [if_pos hst, List.sorted_cons]
      refine ⟨?_, ?_⟩
      · intro b hb
        rcases List.mem_cons.mp hb with hb | hb
        · rw [hb]
          exact hst
        · exact le_trans hst (hs.1 b hb)
      · rw [List.sorted_cons]
        exact hs
    · rw [if_neg hst, List.sorted_cons]
      refine ⟨?_, ih hs.2⟩
      intro b hb
      rcases (mem_insertSorted b s rest).mp hb with hb | hb
      · rw [hb]
        exact le_of_not_le hst
      · exact hs.1 b hb

theorem sorted_sortStrings : ∀ l, List.Sorted (· ≤ ·) (sortStrings l) := by
  intro l
  induction l with
  | nil => simp [sortStrings]
  | cons s rest ih => exact sorted_insertSorted s _ ih

theorem mem_sortStrings (x : String) : ∀ l, x ∈ sortStrings l ↔ x ∈ l := by
  intro l
  induction l with
  | nil => simp [sortStrings]
  | cons s rest ih =>
    unfold sortStrings
    rw [mem_insertSorted, ih]
    simp [List.mem_cons]

theorem forall₂_mem_right {α β : Type} {R : α → β → Prop} :
    ∀ {xs : List α} {ys : List β}, List.Forall₂ R xs ys →
      ∀ y ∈ ys, ∃ x ∈ xs, R x y := by
  intro xs ys hf
  induction hf with
  | nil =>
    intro y hy
    exact absurd hy (List.not_mem_nil _)
  | cons hR htail ih =>
    intro y hy
    rcases List.mem_cons.mp hy with hh | hh
    · subst hh
      exact ⟨_, List.mem_cons_self _ _, hR⟩
    · obtain ⟨x, hx, hRx⟩ := ih y hh
      exact ⟨x, List.mem_cons_of_mem _ hx, hRx⟩

/-- C10: every input column — the matched latitude and longitude columns
included — is stored in each record's attribute map keyed by header name,
and the output CSV's header row is the lexicographically sorted attribute
headers (exactly the input headers) followed by the trailing cluster
column. -/
theorem attributes_roundtrip (parse : String → Option ℚ) (headers : List String)
    (rows : List (List String)) (locs : List (ℚ × ℚ × List (String × String)))
    (clusters : List Int)
    (hok : read_csv parse ⟨headers, rows⟩ = .ok locs)
    (hlen : ∀ row ∈ rows, row.length = headers.length) :
    (∀ loc ∈ locs, ∀ h ∈ headers, ∃ v, loc.2.2.lookup h = some v) ∧
      (locs ≠ [] →
        ∃ hs rest, write_csv locs clusters = (hs ++ ["cluster"]) :: rest ∧
          List.Sorted (· ≤ ·) hs ∧ (∀ h ∈ headers, h ∈ hs) ∧
          ∀ h ∈ hs, h ∈ headers) := by
  obtain ⟨latIdx, lonIdx, _, _, hr⟩ := read_csv_ok_elim hok
  have hf₂ := readRows_forall₂ hr
  constructor
  · intro loc hloc h hh
    obtain ⟨row, hrow, hex⟩ := forall₂_mem_right hf₂ loc hloc
    rw [hex]
    exact lookup_buildExtra_some (hlen row hrow) hh
  · intro hne
    cases hlocs : locs with
    | nil => exact absurd hlocs hne
    | cons loc0 locs' =>
      rw [hlocs] at hf₂
      cases rows with
      | nil => cases hf₂
      | cons row0 rows' =>
        cases hf₂ with
        | cons hR htail =>
          have hR' : loc0.2.2 = buildExtra headers row0 := hR
          refine ⟨sortStrings (loc0.2.2.map Prod.fst), _, rfl, ?_, ?_, ?_⟩
          · exact sorted_sortStrings _
          · intro h hh
            rw [mem_sortStrings, hR']
            obtain ⟨v, hv⟩ :=
              lookup_buildExtra_some (hlen row0 (List.mem_cons_self _ _)) hh
            exact lookup_some_mem_keys hv
          · intro h hh
            rw [mem_sortStrings, hR'] at hh
            exact keys_buildExtra_subset hh

/-- Witness for C10 at a concrete one-row CSV. -/
theorem attributes_roundtrip_witness :
    (∀ loc ∈ [((1 : ℚ), (2 : ℚ), buildExtra ["lat", "lon"] ["1", "2"])],
      ∀ h ∈ ["lat", "lon"], ∃ v, loc.2.2.lookup h = some v) ∧
      ([((1 : ℚ), (2 : ℚ), buildExtra ["lat", "lon"] ["1", "2"])] ≠ [] →
        ∃ hs rest,
          write_csv [((1 : ℚ), (2 : ℚ), buildExtra ["lat", "lon"] ["1", "2"])] [0] =
              (hs ++ ["cluster"]) :: rest ∧
            List.Sorted (· ≤ ·) hs ∧ (∀ h ∈ ["lat", "lon"], h ∈ hs) ∧
            ∀ h ∈ hs, h ∈ ["lat", "lon"]) :=
  attributes_roundtrip
    (fun u => if u = "1" then some (1 : ℚ) else if u = "2" then some 2 else none)
    ["lat", "lon"] [["1", "2"]] _ [0] rfl (by decide)

end ClusterPOI
